import Mathlib

-- Verification of the wearable-my-foot cadence pipeline (notebooks/imu-stepcount.ipynb).
-- The notebook is embedded shallowly over exact rationals: every numeric helper of the
-- notebook (gravity calibration, EMA smoothing, scipy-style peak detection, the
-- one-sided autocorrelation, the windowed get_spm driver and the GPX cadence payload)
-- is translated into a computable Lean definition.  Floating-point-only library calls
-- (the Butterworth filter design and the FFT periodogram) are modelled by the
-- mathematical contract the notebook relies on; this is documented at each such spot.

namespace WMF

-- ===================== 3-vectors over the rationals =====================

-- Acceleration samples are 3-vectors of rationals (component i of a sample v is v i).
abbrev Vec3 := Fin 3 → ℚ

def vdot (u v : Vec3) : ℚ := ∑ i, u i * v i

def vzero : Vec3 := fun _ => 0

def vneg (v : Vec3) : Vec3 := fun i => -(v i)

-- ===================== Gravity Calibrator =====================

-- Componentwise arithmetic mean of a list of vectors (pandas DataFrame.mean on columns).
def vmean (l : List Vec3) : Vec3 := fun i => (l.map (fun v => v i)).sum / (l.length : ℚ)

-- Notebook cell: _df = df.iloc[:9]; gravity_vector = _df.loc[:,["aX","aY","aZ"]].mean()
def gravity_vector (df : List Vec3) : Vec3 := vmean (df.take 9)

-- Notebook: "multiply acceleration values by 9.8 to convert it to m/s^2"
def g_to_ms2 : ℚ := 9.8

-- Notebook cell: df[...] = (df[...] - gravity_vector) * 9.8
def correct_acceleration (g v : Vec3) : Vec3 := fun i => (v i - g i) * g_to_ms2

-- The stationary calibration reading (0, 0, 1) g used by the spec scenario.
def stationary_g : Vec3 := fun i => if i = 2 then 1 else 0

-- ===================== EMA smoothing (pandas ewm(alpha, adjust=False).mean()) ==========

-- Recurrence after the first element: y = alpha * x + (1 - alpha) * prev.
def ewm_rec (a : ℚ) (prev : ℚ) : List ℚ → List ℚ
  | [] => []
  | x :: xs => (a * x + (1 - a) * prev) :: ewm_rec a (a * x + (1 - a) * prev) xs

-- With adjust=False pandas seeds the series with the raw first value.
def ewm_mean (a : ℚ) : List ℚ → List ℚ
  | [] => []
  | x :: xs => x :: ewm_rec a x xs

-- Notebook cell: acceleration_spm_df.peak_detection_spm.ewm(alpha=0.3, adjust=False).mean()
def peak_detection_spm_EMA (raws : List ℚ) : List ℚ := ewm_mean (0.3 : ℚ) raws

-- ===================== Motion-Axis Extractor (sklearn PCA) =====================

-- sklearn PCA().fit_transform first centers the data by subtracting the column mean.
def centered (l : List Vec3) : List Vec3 := l.map (fun v i => v i - vmean l i)

-- Captured variance (up to the 1/n factor, which does not affect maximisers) of the
-- centered series along a direction w.
def varAlong (l : List Vec3) (w : Vec3) : ℚ := ((centered l).map (fun u => (vdot u w) ^ 2)).sum

-- The pca0 column: scalar projection of every centered sample on the chosen axis.
-- For a unit axis this is exactly the scalar_projection helper of the notebook
-- (np.dot(u, v) / norm(v) with norm(v) = 1).
def pca0_series (l : List Vec3) (axis : Vec3) : List ℚ := (centered l).map (fun u => vdot u axis)

-- Relational contract of PCA().fit_transform restricted to its 0th component, which is
-- the only one the notebook uses: the returned axis is a unit vector maximising the
-- captured variance of the mean-centered data, and the returned column is the
-- projection of the centered data on that axis.  The algebraic sign of the axis is the
-- svd_flip convention of sklearn and is deliberately left unconstrained here.
def IsPCA0 (l : List Vec3) (axis : Vec3) (proj : List ℚ) : Prop :=
  vdot axis axis = 1
    ∧ (∀ w : Vec3, vdot w w = 1 → varAlong l w ≤ varAlong l axis)
    ∧ proj = pca0_series l axis

-- Coordinate unit vectors.
def basis (k : Fin 3) : Vec3 := fun i => if i = k then 1 else 0

-- A sample that varies only along coordinate axis k with value z.
def axis_datum (k : Fin 3) (z : ℚ) : Vec3 := fun i => if i = k then z else 0

-- A whole series varying only along coordinate axis k.
def axis_data (k : Fin 3) (zs : List ℚ) : List Vec3 := zs.map (axis_datum k)

def qmean (zs : List ℚ) : ℚ := zs.sum / (zs.length : ℚ)

def qcentered (zs : List ℚ) : List ℚ := zs.map (fun z => z - qmean zs)

-- Sum of squares of a scalar series.
def qss (zs : List ℚ) : ℚ := (zs.map (fun z => z ^ 2)).sum

-- ===================== Track Exporter (GPX cadence payload) =====================

-- Python int() truncates toward zero.
def py_int (q : ℚ) : ℤ := if 0 ≤ q then ⌊q⌋ else ⌈q⌉

-- Notebook: cadence_element.text = str(int(cadence if cadence <= 254 else 254)).
-- We model the serialized numeric payload of the gpxtrx:cad extension element.
def get_cadence_extension (c : ℚ) : ℤ := py_int (if c ≤ 254 then c else 254)

-- ===================== scipy.signal.find_peaks =====================

-- The keyword arguments the notebook passes to find_peaks: a lower height bound
-- (height=(h, None)), a minimal peak distance in samples, and a minimal prominence.
structure PeakKwargs where
  height : Option ℚ
  distance : Option ℕ
  prominence : Option ℚ

def noKwargs : PeakKwargs := ⟨none, none, none⟩

-- The peak_detection_kwargs of the windowed-aggregation cell (prominence 20,
-- distance 20, height (35, None)), used for both positive and negative peaks.
def aggKwargs : PeakKwargs := ⟨some 35, some 20, some 20⟩

-- Plateau scan of scipy _local_maxima_1d: advance j while j < n - 1 and x[j] == v.
def plateau_end (x : List ℚ) (v : ℚ) : ℕ → ℕ → ℕ
  | 0, j => j
  | fuel + 1, j =>
      if j < x.length - 1 ∧ x.getD j 0 = v then plateau_end x v fuel (j + 1) else j

-- Main scan of scipy _local_maxima_1d over i = 1 .. n - 2: a sample is a local
-- maximum when its left neighbour is strictly lower and the first differing value to
-- the right is strictly lower; a flat plateau contributes its middle index.
def lm_aux (x : List ℚ) : ℕ → ℕ → List ℕ
  | 0, _ => []
  | fuel + 1, i =>
      if i < x.length - 1 then
        if x.getD (i - 1) 0 < x.getD i 0 then
          let j := plateau_end x (x.getD i 0) x.length (i + 1)
          if x.getD j 0 < x.getD i 0 then
            ((i + (j - 1)) / 2) :: lm_aux x fuel (j + 1)
          else
            lm_aux x fuel (i + 1)
        else
          lm_aux x fuel (i + 1)
      else []

def local_maxima (x : List ℚ) : List ℕ := lm_aux x x.length 1

-- Priority order of scipy _select_by_peak_distance: peaks sorted by height
-- (ascending), then processed from the highest down.  numpy argsort leaves the
-- relative order of equal heights unspecified; we fix the index-ascending order.
def prio_le (x : List ℚ) (peaks : List ℕ) (i j : ℕ) : Bool :=
  if x.getD (peaks.getD i 0) 0 < x.getD (peaks.getD j 0) 0 then true
  else if x.getD (peaks.getD j 0) 0 < x.getD (peaks.getD i 0) 0 then false
  else decide (i ≤ j)

def insert_by (le : ℕ → ℕ → Bool) (a : ℕ) : List ℕ → List ℕ
  | [] => [a]
  | b :: bs => if le a b then a :: b :: bs else b :: insert_by le a bs

def sort_by (le : ℕ → ℕ → Bool) : List ℕ → List ℕ
  | [] => []
  | a :: as => insert_by le a (sort_by le as)

-- One step of the distance filter: a still-kept peak j removes every other peak
-- strictly closer than d samples.
def sbd_step (peaks : List ℕ) (d : ℕ) (keep : List Bool) (j : ℕ) : List Bool :=
  if keep.getD j false then
    (List.range peaks.length).map (fun k =>
      if k ≠ j ∧ ((peaks.getD k 0 : ℤ) - (peaks.getD j 0 : ℤ)).natAbs < d then false
      else keep.getD k false)
  else keep

def select_by_peak_distance (x : List ℚ) (peaks : List ℕ) (d : ℕ) : List ℕ :=
  let order := (sort_by (prio_le x peaks) (List.range peaks.length)).reverse
  let keep := order.foldl (sbd_step peaks d) (List.replicate peaks.length true)
  ((List.range peaks.length).filter (fun k => keep.getD k false)).map (fun k => peaks.getD k 0)

-- scipy _peak_prominences left scan: walk left from the peak while samples do not
-- exceed the peak value, tracking the minimum.
def prom_left (x : List ℚ) (v : ℚ) : ℕ → ℚ → ℤ → ℚ
  | 0, cur, _ => cur
  | fuel + 1, cur, i =>
      if i < 0 then cur
      else if v < x.getD i.toNat 0 then cur
      else prom_left x v fuel (min cur (x.getD i.toNat 0)) (i - 1)

def prom_right (x : List ℚ) (v : ℚ) : ℕ → ℚ → ℕ → ℚ
  | 0, cur, _ => cur
  | fuel + 1, cur, i =>
      if x.length ≤ i then cur
      else if v < x.getD i 0 then cur
      else prom_right x v fuel (min cur (x.getD i 0)) (i + 1)

def peak_prominence (x : List ℚ) (p : ℕ) : ℚ :=
  x.getD p 0 -
    max (prom_left x (x.getD p 0) (x.length + 1) (x.getD p 0) (p : ℤ))
      (prom_right x (x.getD p 0) (x.length + 1) (x.getD p 0) p)

-- scipy.signal.find_peaks: local maxima, then the height filter, then the distance
-- filter, then the prominence filter (the order scipy applies them in).
def find_peaks (x : List ℚ) (kw : PeakKwargs) : List ℕ :=
  let p0 := local_maxima x
  let p1 := match kw.height with
    | some hmin => p0.filter (fun p => decide (hmin ≤ x.getD p 0))
    | none => p0
  let p2 := match kw.distance with
    | some d => select_by_peak_distance x p1 d
    | none => p1
  match kw.prominence with
  | some pm => p2.filter (fun p => decide (pm ≤ peak_prominence x p))
  | none => p2

-- ===================== Cadence estimators =====================

-- Notebook peak_detection_steps: find_peaks on the data and on its negation,
-- returning max(len(peaks), len(neg_peaks)).
def peak_detection_steps (data : List ℚ) (pos neg : PeakKwargs) : ℕ :=
  max (find_peaks data pos).length (find_peaks (data.map (fun q => -q)) neg).length

-- np.correlate(x, x, mode=full) entry at signed lag d (the full correlation is
-- symmetric in d for a real signal, so the numpy ordering convention is immaterial).
def corr_at (x : List ℚ) (d : ℤ) : ℚ :=
  ∑ i ∈ Finset.range x.length,
    (if 0 ≤ (i : ℤ) + d ∧ (i : ℤ) + d < (x.length : ℤ)
     then x.getD i 0 * x.getD ((i : ℤ) + d).toNat 0 else 0)

-- Entry k of the full correlation: the signed lag is k - (n - 1).
def full_entry (x : List ℚ) (k : ℕ) : ℚ := corr_at x ((k : ℤ) - ((x.length : ℤ) - 1))

-- The full correlation, indexed k = 0 .. 2n - 2, lag k - (n - 1); the zero-lag
-- entry sits at index n - 1.
def full_correlate (x : List ℚ) : List ℚ :=
  (List.range (2 * x.length - 1)).map (full_entry x)

-- Notebook autocorr: result[:int(len(result)/2)], i.e. the first n - 1 entries of the
-- full correlation -- all strictly negative lags, so the zero-lag peak is dropped.
def autocorr (x : List ℚ) : List ℚ :=
  (full_correlate x).take ((full_correlate x).length / 2)

-- Notebook autocorr_steps: count of find_peaks (no keyword arguments) on autocorr.
def autocorr_steps (data : List ℚ) : ℕ := (find_peaks (autocorr data) noKwargs).length

-- ===================== Windowed cadence (get_spm) =====================

-- Notebook to_steps_per_minute(step_count, dt) with dt in seconds.
def to_steps_per_minute (count dt : ℚ) : ℚ := count / dt * 60

-- Notebook get_time_period(a, b): rows with a * 1000 <= time < b * 1000 (a, b seconds).
def get_time_period (df : List (ℤ × ℚ)) (a b : ℚ) : List (ℤ × ℚ) :=
  df.filter (fun r => decide (a * 1000 ≤ (r.1 : ℚ)) && decide ((r.1 : ℚ) < b * 1000))

-- Series max and min (pandas .max() / .min() on a nonempty column).
def time_max (ts : List ℤ) : ℤ := ts.foldl max (ts.headD 0)

def time_min (ts : List ℤ) : ℤ := ts.foldl min (ts.headD 0)

-- data.loc[frame.index].values for a scalar column stored beside the times.
def window_values (df : List (ℤ × ℚ)) (a b : ℚ) : List ℚ :=
  (get_time_period df a b).map (fun r => r.2)

-- Notebook: dt = (frame.time.max() - frame.time.min()) / 1000.0 -- the observed span
-- of the samples inside the window, not the nominal window length b - a.
def observed_span_seconds (df : List (ℤ × ℚ)) (a b : ℚ) : ℚ :=
  (((time_max ((get_time_period df a b).map (fun r => r.1))
      - time_min ((get_time_period df a b).map (fun r => r.1))) : ℤ) : ℚ) / 1000

structure SpmResult where
  peak_detection_spm : ℚ
  fft_spm : ℚ
  autocorrelation_spm : ℚ

-- Notebook get_spm(data, a, b, peak_detection_fc, fft_fc, autocorrelation_fc,
-- peak_detection_kwargs).  filter_series with cutoffs (None, None) returns the data
-- unchanged; with cutoffs set it applies a floating-point Butterworth filtfilt, so the
-- three per-method filters enter the embedding as function parameters pf, ff, af
-- (identity for the no-filter configuration).  fft_dominant_freq is the argmax
-- frequency of a floating-point periodogram and enters as the parameter dom_freq;
-- the notebook multiplies it by 60 without using dt.
def get_spm (pf ff af : List ℚ → List ℚ) (dom_freq : List ℚ → ℚ)
    (df : List (ℤ × ℚ)) (a b : ℚ) (pos neg : PeakKwargs) : SpmResult :=
  ⟨to_steps_per_minute ((peak_detection_steps (pf (window_values df a b)) pos neg : ℕ) : ℚ)
      (observed_span_seconds df a b),
   dom_freq (ff (window_values df a b)) * 60,
   to_steps_per_minute ((autocorr_steps (af (window_values df a b)) : ℕ) : ℚ)
      (observed_span_seconds df a b)⟩

-- A placeholder dominant-frequency function for concrete evaluations of the peak and
-- autocorrelation fields, which do not depend on it.
def zero_dom_freq : List ℚ → ℚ := fun _ => 0

-- ===================== Filter Bank (zero-phase filtfilt) =====================

-- The notebook filters (band_pass, high_pass, low_pass) all call
-- scipy.signal.filtfilt(b, a, data): the designed order-5 Butterworth IIR filter is
-- applied forward and then backward over the window.  The Butterworth design is a
-- floating-point transcendental computation, so the causal filter is modelled here by
-- its impulse response h (a finitely supported rational approximation of the IIR
-- response); signals live on ℤ so that the backward pass is an exact time reversal
-- (scipy's same-length output alignment), ignoring finite-window edge padding.
def apply_causal (h : List ℚ) (x : ℤ → ℚ) : ℤ → ℚ :=
  fun n => ∑ i ∈ Finset.range h.length, h.getD i 0 * x (n - (i : ℤ))

def rev_sig (x : ℤ → ℚ) : ℤ → ℚ := fun n => x (-n)

-- Forward pass, time reversal, forward pass, time reversal: scipy filtfilt.
def filtfilt (h : List ℚ) (x : ℤ → ℚ) : ℤ → ℚ :=
  rev_sig (apply_causal h (rev_sig (apply_causal h x)))

-- A unit test impulse at sample index m.
def impulse (m : ℤ) : ℤ → ℚ := fun n => if n = m then 1 else 0

-- The impulse response of h extended by zero outside its support.
def coef (h : List ℚ) (j : ℤ) : ℚ :=
  if 0 ≤ j ∧ j < (h.length : ℤ) then h.getD j.toNat 0 else 0

-- Discrete autocorrelation of the impulse response at lag d.
def acorr_k (h : List ℚ) (d : ℤ) : ℚ :=
  ∑ i ∈ Finset.range h.length, h.getD i 0 * coef h ((i : ℤ) + d)

-- ===================== Concrete sample tables =====================

-- Five all-zero samples 10 ms apart: simultaneously a window shorter than any
-- reasonable minimum sample count and a zero-variance window.
def df5 : List (ℤ × ℚ) := [(0, 0), (10, 0), (20, 0), (30, 0), (40, 0)]

-- Five samples spanning 4 s with two clean positive peaks.
def dfPk : List (ℤ × ℚ) := [(0, 0), (1000, 5), (2000, 0), (3000, 5), (4000, 0)]

-- A recording that ends 2 s in: a 10 s window starting at 0 is only partially covered.
def dfTrail : List (ℤ × ℚ) := [(0, 0), (500, 5), (1000, 0), (1500, 5), (2000, 0)]

end WMF

namespace WMF

-- ===================== Helper lemmas: lists of rationals =====================

theorem list_sum_const (l : List ℚ) (c : ℚ) (h : ∀ x ∈ l, x = c) :
    l.sum = (l.length : ℚ) * c := by
  induction l with
  | nil => simp
  | cons x xs ih =>
      have hx : x = c := h x (by simp)
      have hxs : ∀ y ∈ xs, y = c := fun y hy => h y (by simp [hy])
      rw [List.sum_cons, hx, ih hxs, List.length_cons]
      push_cast
      ring

theorem ewm_rec_const (a k p : ℚ) (xs : List ℚ) (hxs : ∀ x ∈ xs, x = k) (hp : p = k) :
    ∀ y ∈ ewm_rec a p xs, y = k := by
  induction xs generalizing p with
  | nil => intro y hy; simp [ewm_rec] at hy
  | cons x t ih =>
      intro y hy
      have hx : x = k := hxs x (by simp)
      have hstep : a * x + (1 - a) * p = k := by rw [hx, hp]; ring
      simp only [ewm_rec, List.mem_cons] at hy
      rcases hy with hy | hy
      · rw [hy, hstep]
      · exact ih (a * x + (1 - a) * p) (fun z hz => hxs z (by simp [hz])) hstep y hy

theorem ewm_rec_length (a p : ℚ) (xs : List ℚ) : (ewm_rec a p xs).length = xs.length := by
  induction xs generalizing p with
  | nil => rfl
  | cons x t ih => simp [ewm_rec, ih]

theorem ewm_rec_getD (a p : ℚ) (xs : List ℚ) :
    ∀ i, i < xs.length →
      (ewm_rec a p xs).getD i 0
        = a * xs.getD i 0 + (1 - a) * (if i = 0 then p else (ewm_rec a p xs).getD (i - 1) 0) := by
  induction xs generalizing p with
  | nil => intro i hi; simp at hi
  | cons x t ih =>
      intro i hi
      cases i with
      | zero => simp [ewm_rec]
      | succ j =>
          have hj : j < t.length := by simpa using hi
          have := ih (a * x + (1 - a) * p) j hj
          cases j with
          | zero => simpa [ewm_rec] using this
          | succ j2 => simpa [ewm_rec] using this

theorem ewm_mean_length (a : ℚ) (xs : List ℚ) : (ewm_mean a xs).length = xs.length := by
  cases xs with
  | nil => rfl
  | cons x t => simp [ewm_mean, ewm_rec_length]

theorem ewm_mean_getD_succ (a : ℚ) (xs : List ℚ) (i : ℕ) (hi : i + 1 < xs.length) :
    (ewm_mean a xs).getD (i + 1) 0
      = a * xs.getD (i + 1) 0 + (1 - a) * (ewm_mean a xs).getD i 0 := by
  cases xs with
  | nil => simp at hi
  | cons x t =>
      have ht : i < t.length := by simpa using hi
      have hrec := ewm_rec_getD a x t i ht
      cases i with
      | zero => simpa [ewm_mean] using hrec
      | succ j => simpa [ewm_mean] using hrec

theorem ewm_mean_const (a k : ℚ) (xs : List ℚ) (hxs : ∀ x ∈ xs, x = k) :
    ∀ y ∈ ewm_mean a xs, y = k := by
  cases xs with
  | nil => intro y hy; simp [ewm_mean] at hy
  | cons x t =>
      intro y hy
      have hx : x = k := hxs x (by simp)
      simp only [ewm_mean, List.mem_cons] at hy
      rcases hy with hy | hy
      · rw [hy, hx]
      · exact ewm_rec_const a k x t (fun z hz => hxs z (by simp [hz])) hx y hy

theorem ewm_rec_nonneg (a p : ℚ) (xs : List ℚ) (ha0 : 0 ≤ a) (ha1 : a ≤ 1)
    (hp : 0 ≤ p) (hxs : ∀ x ∈ xs, 0 ≤ x) : ∀ y ∈ ewm_rec a p xs, 0 ≤ y := by
  induction xs generalizing p with
  | nil => intro y hy; simp [ewm_rec] at hy
  | cons x t ih =>
      intro y hy
      have hx : 0 ≤ x := hxs x (by simp)
      have hstep : 0 ≤ a * x + (1 - a) * p := by
        have h1 : 0 ≤ a * x := mul_nonneg ha0 hx
        have h2 : 0 ≤ (1 - a) * p := mul_nonneg (by linarith) hp
        linarith
      simp only [ewm_rec, List.mem_cons] at hy
      rcases hy with hy | hy
      · rw [hy]; exact hstep
      · exact ih (a * x + (1 - a) * p) hstep (fun z hz => hxs z (by simp [hz])) y hy

-- ===================== Helper lemmas: PCA =====================

theorem list_sum_map_zero (l : List ℚ) : (l.map (fun _ => (0 : ℚ))).sum = 0 := by
  induction l with
  | nil => rfl
  | cons x t ih => simp [ih]

theorem qss_nonneg (zs : List ℚ) : 0 ≤ qss zs := by
  induction zs with
  | nil => simp [qss]
  | cons x t ih =>
      have hx := sq_nonneg x
      simp only [qss, List.map_cons, List.sum_cons]
      simp only [qss] at ih
      linarith

theorem vdot_axis_datum (k : Fin 3) (c : ℚ) (w : Vec3) :
    vdot (axis_datum k c) w = c * w k := by
  simp [vdot, axis_datum, ite_mul, Finset.sum_ite_eq']

theorem vmean_axis_data (k : Fin 3) (zs : List ℚ) :
    vmean (axis_data k zs) = axis_datum k (qmean zs) := by
  funext i
  rw [vmean, axis_data, List.map_map, List.length_map]
  have hfun : ((fun v => v i) ∘ axis_datum k) = fun z => if i = k then z else 0 := by
    funext z
    simp [Function.comp, axis_datum]
  rw [hfun]
  by_cases hik : i = k
  · subst hik
    have hid : (fun z => if i = i then z else 0) = fun z : ℚ => z := by
      funext z
      simp
    rw [hid, List.map_id']
    simp [axis_datum, qmean]
  · simp only [if_neg hik]
    rw [list_sum_map_zero, zero_div]
    simp [axis_datum, hik]

theorem centered_axis_data (k : Fin 3) (zs : List ℚ) :
    centered (axis_data k zs) = axis_data k (qcentered zs) := by
  rw [centered, vmean_axis_data]
  rw [show axis_data k zs = zs.map (axis_datum k) from rfl, List.map_map]
  rw [show axis_data k (qcentered zs) = (zs.map (fun z => z - qmean zs)).map (axis_datum k) from rfl,
    List.map_map]
  congr 1
  funext z
  funext i
  by_cases hik : i = k
  · subst hik; simp [Function.comp, axis_datum]
  · simp [Function.comp, axis_datum, hik]

theorem list_sum_sq_mul (l : List ℚ) (t : ℚ) :
    (l.map (fun c => (c * t) ^ 2)).sum = (l.map (fun c => c ^ 2)).sum * t ^ 2 := by
  induction l with
  | nil => simp
  | cons x xs ih => simp [ih]; ring

theorem varAlong_axis_data (k : Fin 3) (zs : List ℚ) (w : Vec3) :
    varAlong (axis_data k zs) w = qss (qcentered zs) * (w k) ^ 2 := by
  rw [varAlong, centered_axis_data]
  rw [show axis_data k (qcentered zs) = (qcentered zs).map (axis_datum k) from rfl, List.map_map]
  have hfun : ((fun u => (vdot u w) ^ 2) ∘ axis_datum k) = fun c => (c * w k) ^ 2 := by
    funext c
    simp [Function.comp, vdot_axis_datum]
  rw [hfun, list_sum_sq_mul]
  rfl

theorem unit_comp_sq_le (w : Vec3) (hw : vdot w w = 1) (k : Fin 3) : (w k) ^ 2 ≤ 1 := by
  have hsplit : w k * w k + ∑ i ∈ Finset.univ.erase k, w i * w i = 1 := by
    rw [Finset.add_sum_erase Finset.univ (fun i => w i * w i) (Finset.mem_univ k)]
    simpa [vdot] using hw
  have hrest : 0 ≤ ∑ i ∈ Finset.univ.erase k, w i * w i :=
    Finset.sum_nonneg (fun j _ => mul_self_nonneg (w j))
  nlinarith [hsplit, hrest]

theorem basis_eq_axis_datum (k : Fin 3) : basis k = axis_datum k 1 := rfl

theorem vdot_basis_self (k : Fin 3) : vdot (basis k) (basis k) = 1 := by
  rw [basis_eq_axis_datum, vdot_axis_datum]
  simp [axis_datum]

theorem pca0_exists (k : Fin 3) (zs : List ℚ) :
    IsPCA0 (axis_data k zs) (basis k) (qcentered zs) := by
  refine ⟨vdot_basis_self k, ?_, ?_⟩
  · intro w hw
    rw [varAlong_axis_data, varAlong_axis_data]
    have hbk : basis k k = 1 := by simp [basis]
    rw [hbk, one_pow, mul_one]
    have h1 : (w k) ^ 2 ≤ 1 := unit_comp_sq_le w hw k
    nlinarith [qss_nonneg (qcentered zs)]
  · rw [pca0_series, centered_axis_data]
    rw [show axis_data k (qcentered zs) = (qcentered zs).map (axis_datum k) from rfl, List.map_map]
    have hfun : ((fun u => vdot u (basis k)) ∘ axis_datum k) = fun c => c := by
      funext c
      simp [Function.comp, vdot_axis_datum, basis]
    rw [hfun, List.map_id']

theorem pca0_unique (k : Fin 3) (zs : List ℚ) (hS : qss (qcentered zs) ≠ 0)
    (axis : Vec3) (proj : List ℚ) (h : IsPCA0 (axis_data k zs) axis proj) :
    (axis = basis k ∧ proj = qcentered zs)
      ∨ (axis = vneg (basis k) ∧ proj = (qcentered zs).map (fun c => -c)) := by
  obtain ⟨hunit, hmax, hproj⟩ := h
  have hSpos : 0 < qss (qcentered zs) := lt_of_le_of_ne (qss_nonneg _) (Ne.symm hS)
  have h1 := hmax (basis k) (vdot_basis_self k)
  rw [varAlong_axis_data, varAlong_axis_data] at h1
  have hbk : basis k k = 1 := by simp [basis]
  rw [hbk, one_pow, mul_one] at h1
  have h2 : 1 ≤ (axis k) ^ 2 := by nlinarith [h1, hSpos]
  have h3 : (axis k) ^ 2 ≤ 1 := unit_comp_sq_le axis hunit k
  have h4 : (axis k) ^ 2 = 1 := le_antisymm h3 h2
  have h4m : axis k * axis k = 1 := by nlinarith [h4]
  have h5 : axis k = 1 ∨ axis k = -1 := by
    rcases mul_eq_zero.mp (show (axis k - 1) * (axis k + 1) = 0 by nlinarith [h4]) with h | h
    · left; linarith
    · right; linarith
  have hsplit : axis k * axis k + ∑ i ∈ Finset.univ.erase k, axis i * axis i = 1 := by
    rw [Finset.add_sum_erase Finset.univ (fun i => axis i * axis i) (Finset.mem_univ k)]
    simpa [vdot] using hunit
  have h6 : ∑ i ∈ Finset.univ.erase k, axis i * axis i = 0 := by linarith
  have hcomp : ∀ i, i ≠ k → axis i = 0 := by
    intro i hi
    exact mul_self_eq_zero.mp
      ((Finset.sum_eq_zero_iff_of_nonneg (fun j _ => mul_self_nonneg (axis j))).mp h6 i
        (Finset.mem_erase.mpr ⟨hi, Finset.mem_univ i⟩))
  have hproj2 : proj = (qcentered zs).map (fun c => c * axis k) := by
    rw [hproj, pca0_series, centered_axis_data]
    rw [show axis_data k (qcentered zs) = (qcentered zs).map (axis_datum k) from rfl, List.map_map]
    congr 1
    funext c
    simp [Function.comp, vdot_axis_datum]
  rcases h5 with h5 | h5
  · left
    constructor
    · funext i
      by_cases hik : i = k
      · subst hik; simp [basis, h5]
      · simp [basis, hik, hcomp i hik]
    · rw [hproj2, h5]
      simp
  · right
    constructor
    · funext i
      by_cases hik : i = k
      · subst hik; simp [vneg, basis, h5]
      · simp [vneg, basis, hik, hcomp i hik]
    · rw [hproj2, h5]
      congr 1
      funext c
      ring

theorem vdot_vzero_left (w : Vec3) : vdot vzero w = 0 := by
  simp [vdot, vzero]

theorem centered_replicate (n : ℕ) (c : Vec3) :
    centered (List.replicate n c) = List.replicate n vzero := by
  cases n with
  | zero => rfl
  | succ m =>
      have hmean : vmean (List.replicate (m + 1) c) = c := by
        funext i
        rw [vmean, List.map_replicate, List.sum_replicate, List.length_replicate, nsmul_eq_mul]
        field_simp
      rw [centered, List.map_replicate]
      congr 1
      funext i
      rw [hmean]
      simp [vzero]

theorem varAlong_replicate (n : ℕ) (c : Vec3) (w : Vec3) :
    varAlong (List.replicate n c) w = 0 := by
  rw [varAlong, centered_replicate, List.map_replicate, vdot_vzero_left]
  simp

theorem pca0_series_replicate (n : ℕ) (c : Vec3) (v : Vec3) :
    pca0_series (List.replicate n c) v = List.replicate n 0 := by
  rw [pca0_series, centered_replicate, List.map_replicate, vdot_vzero_left]

theorem pca0_const (n : ℕ) (c : Vec3) (v : Vec3) (hv : vdot v v = 1) :
    IsPCA0 (List.replicate n c) v (List.replicate n 0) := by
  refine ⟨hv, ?_, ?_⟩
  · intro w hw
    rw [varAlong_replicate, varAlong_replicate]
  · rw [pca0_series_replicate]

theorem ewm_mean_nonneg (a : ℚ) (xs : List ℚ) (ha0 : 0 ≤ a) (ha1 : a ≤ 1)
    (hxs : ∀ x ∈ xs, 0 ≤ x) : ∀ y ∈ ewm_mean a xs, 0 ≤ y := by
  cases xs with
  | nil => intro y hy; simp [ewm_mean] at hy
  | cons x t =>
      intro y hy
      have hx : 0 ≤ x := hxs x (by simp)
      simp only [ewm_mean, List.mem_cons] at hy
      rcases hy with hy | hy
      · rw [hy]; exact hx
      · exact ewm_rec_nonneg a x t ha0 ha1 hx (fun z hz => hxs z (by simp [hz])) y hy

-- ===================== Helper lemmas: all-zero windows =====================

theorem list_getD_zero (x : List ℚ) (h : ∀ v ∈ x, v = 0) : ∀ j, x.getD j 0 = 0 := by
  induction x with
  | nil => intro j; cases j <;> rfl
  | cons y t ih =>
      intro j
      cases j with
      | zero => exact h y (by simp)
      | succ j2 => exact ih (fun v hv => h v (by simp [hv])) j2

theorem lm_aux_zero (x : List ℚ) (h : ∀ j, x.getD j 0 = 0) :
    ∀ fuel i, lm_aux x fuel i = [] := by
  intro fuel
  induction fuel with
  | zero => intro i; rfl
  | succ f ih =>
      intro i
      simp only [lm_aux]
      by_cases h1 : i < x.length - 1
      · rw [if_pos h1, h (i - 1), h i, if_neg (lt_irrefl 0)]
        exact ih (i + 1)
      · rw [if_neg h1]

theorem local_maxima_zero (x : List ℚ) (h : ∀ v ∈ x, v = 0) : local_maxima x = [] :=
  lm_aux_zero x (list_getD_zero x h) x.length 1

theorem select_by_peak_distance_nil (x : List ℚ) (d : ℕ) :
    select_by_peak_distance x [] d = [] := rfl

theorem find_peaks_zero (x : List ℚ) (h : ∀ v ∈ x, v = 0) (kw : PeakKwargs) :
    find_peaks x kw = [] := by
  obtain ⟨hh, hd, hp⟩ := kw
  cases hh <;> cases hd <;> cases hp <;>
    simp [find_peaks, local_maxima_zero x h, select_by_peak_distance_nil]

theorem map_neg_zero (x : List ℚ) (h : ∀ v ∈ x, v = 0) :
    ∀ v ∈ x.map (fun q : ℚ => -q), v = 0 := by
  intro v hv
  rcases List.mem_map.mp hv with ⟨w, hw, rfl⟩
  rw [h w hw, neg_zero]

theorem corr_at_zero (x : List ℚ) (h : ∀ v ∈ x, v = 0) (d : ℤ) : corr_at x d = 0 := by
  rw [corr_at]
  refine Finset.sum_eq_zero ?_
  intro i _
  split
  · rw [list_getD_zero x h i, zero_mul]
  · rfl

theorem autocorr_zero_mem (x : List ℚ) (h : ∀ v ∈ x, v = 0) :
    ∀ v ∈ autocorr x, v = 0 := by
  intro v hv
  have hfull : v ∈ full_correlate x := List.mem_of_mem_take hv
  rcases List.mem_map.mp hfull with ⟨k, _, rfl⟩
  exact corr_at_zero x h _

-- ===================== Helper lemmas: concrete windows =====================

theorem window_values_df5 : window_values df5 0 10 = [0, 0, 0, 0, 0] := by
  norm_num [window_values, get_time_period, df5, List.filter]

theorem window_values_dfPk : window_values dfPk 0 5 = [0, 5, 0, 5, 0] := by
  norm_num [window_values, get_time_period, dfPk, List.filter]

theorem window_values_dfTrail : window_values dfTrail 0 10 = [0, 5, 0, 5, 0] := by
  norm_num [window_values, get_time_period, dfTrail, List.filter]

theorem span_dfPk : observed_span_seconds dfPk 0 5 = 4 := by
  have h : get_time_period dfPk 0 5 = dfPk := by
    norm_num [get_time_period, dfPk, List.filter]
  rw [observed_span_seconds, h]
  have hmax : time_max (dfPk.map (fun r => r.1)) = 4000 := by decide
  have hmin : time_min (dfPk.map (fun r => r.1)) = 0 := by decide
  rw [hmax, hmin]
  norm_num

theorem span_dfTrail : observed_span_seconds dfTrail 0 10 = 2 := by
  have h : get_time_period dfTrail 0 10 = dfTrail := by
    norm_num [get_time_period, dfTrail, List.filter]
  rw [observed_span_seconds, h]
  have hmax : time_max (dfTrail.map (fun r => r.1)) = 2000 := by decide
  have hmin : time_min (dfTrail.map (fun r => r.1)) = 0 := by decide
  rw [hmax, hmin]
  norm_num

theorem steps_05050 : peak_detection_steps [0, 5, 0, 5, 0] noKwargs noKwargs = 2 := by
  decide

-- Shared core of the C3 results: on a window whose sample values are all zero,
-- get_spm with unfiltered series returns the numeric value 0 for the peak-detection
-- and autocorrelation methods.
theorem get_spm_all_zero (df : List (ℤ × ℚ)) (a b : ℚ) (pos neg : PeakKwargs)
    (domF : List ℚ → ℚ) (hz : ∀ v ∈ window_values df a b, v = 0) :
    (get_spm id id id domF df a b pos neg).peak_detection_spm = 0
      ∧ (get_spm id id id domF df a b pos neg).autocorrelation_spm = 0 := by
  constructor
  · have h1 : find_peaks (window_values df a b) pos = [] := find_peaks_zero _ hz pos
    have h2 : find_peaks ((window_values df a b).map (fun q => -q)) neg = [] :=
      find_peaks_zero _ (map_neg_zero _ hz) neg
    simp [get_spm, peak_detection_steps, id_eq, h1, h2, to_steps_per_minute]
  · have h3 : find_peaks (autocorr (window_values df a b)) noKwargs = [] :=
      find_peaks_zero _ (autocorr_zero_mem _ hz) noKwargs
    simp [get_spm, autocorr_steps, id_eq, h3, to_steps_per_minute]

-- ===================== Claim C1 =====================

/-- C1: for every analysis window the peak-based estimator runs scipy find_peaks on the
(window) series and, independently, on its negation (the local minima), takes the step
count to be the max of the two peak counts, and reports steps-per-minute equal to that
count divided by the window span in seconds times 60 (a concrete window with two
maxima, one minimum and a 4 s span yields 2 / 4 * 60 = 30 spm). -/
theorem C1_peak_estimator :
    (∀ pf ff af domF df a b pos neg,
        (get_spm pf ff af domF df a b pos neg).peak_detection_spm
          = ((max (find_peaks (pf (window_values df a b)) pos).length
                (find_peaks ((pf (window_values df a b)).map (fun q => -q)) neg).length : ℕ) : ℚ)
              / observed_span_seconds df a b * 60)
      ∧ (∀ data pos neg, peak_detection_steps data pos neg
          = max (find_peaks data pos).length (find_peaks (data.map (fun q => -q)) neg).length)
      ∧ (∀ c dt, to_steps_per_minute c dt = c / dt * 60)
      ∧ (get_spm id id id zero_dom_freq dfPk 0 5 noKwargs noKwargs).peak_detection_spm = 30 :=
  ⟨fun _ _ _ _ _ _ _ _ _ => rfl, fun _ _ _ => rfl, fun _ _ => rfl, by
    simp only [get_spm, id_eq, window_values_dfPk, span_dfPk, steps_05050, to_steps_per_minute]
    norm_num⟩

-- ===================== Claim C2 =====================

/-- C2: the gravity calibrator outputs the arithmetic mean of the 3-vector
accelerations over the initial fixed-size span (df.iloc[:9]) and every subsequent
sample is corrected as (raw - gravity) * 9.8; on a calibration span that is constantly
(0,0,1) g the computed gravity vector is exactly (0,0,1) g, and a subsequent (0,0,1) g
sample corrects to (0,0,0). -/
theorem C2_gravity_calibrator (df : List Vec3) (hne : df ≠ [])
    (hconst : ∀ v ∈ df.take 9, v = stationary_g) :
    gravity_vector df = stationary_g
      ∧ correct_acceleration (gravity_vector df) stationary_g = vzero
      ∧ (∀ l : List Vec3, gravity_vector l = vmean (l.take 9))
      ∧ (∀ g v : Vec3, ∀ i, correct_acceleration g v i = (v i - g i) * g_to_ms2) := by
  have hlen : (df.take 9).length ≠ 0 := by
    cases df with
    | nil => exact absurd rfl hne
    | cons d t => simp [List.take_succ_cons]
  have h1 : gravity_vector df = stationary_g := by
    funext i
    rw [gravity_vector, vmean]
    have hmem : ∀ q ∈ (df.take 9).map (fun v => v i), q = stationary_g i := by
      intro q hq
      rcases List.mem_map.mp hq with ⟨v, hv, rfl⟩
      rw [hconst v hv]
    rw [list_sum_const _ _ hmem, List.length_map]
    have hcast : ((df.take 9).length : ℚ) ≠ 0 := Nat.cast_ne_zero.mpr hlen
    rw [mul_comm (((df.take 9).length : ℚ)) (stationary_g i), mul_div_assoc,
      div_self hcast, mul_one]
  refine ⟨h1, ?_, fun l => rfl, fun g v i => rfl⟩
  rw [h1]
  funext i
  simp [correct_acceleration, vzero]

/-- Witness for C2 at a concrete 9-sample stationary calibration span. -/
theorem C2_gravity_calibrator_witness :
    gravity_vector (List.replicate 9 stationary_g) = stationary_g
      ∧ correct_acceleration (gravity_vector (List.replicate 9 stationary_g)) stationary_g
          = vzero :=
  have h := C2_gravity_calibrator (List.replicate 9 stationary_g)
    (by simp [List.replicate_eq_nil_iff])
    (by
      intro v hv
      rw [List.take_replicate] at hv
      exact List.eq_of_mem_replicate hv)
  ⟨h.1, h.2.1⟩

-- ===================== Claim C3 =====================

/-- C3 counterexample: get_spm has no WindowTooShort or NoSignal failure path.  On a
window holding only 5 samples, all of them zero (simultaneously below any minimum
sample count and of zero variance), the peak-detection and autocorrelation methods
both return the numeric estimate 0 steps-per-minute instead of failing. -/
theorem C3_counterexample :
    (window_values df5 0 10).length = 5
      ∧ (∀ v ∈ window_values df5 0 10, v = 0)
      ∧ (get_spm id id id zero_dom_freq df5 0 10 noKwargs noKwargs).peak_detection_spm = 0
      ∧ (get_spm id id id zero_dom_freq df5 0 10 noKwargs noKwargs).autocorrelation_spm = 0 := by
  have hz : ∀ v ∈ window_values df5 0 10, v = (0 : ℚ) := by
    rw [window_values_df5]
    decide
  refine ⟨?_, hz, ?_, ?_⟩
  · rw [window_values_df5]
    rfl
  · exact (get_spm_all_zero df5 0 10 noKwargs noKwargs zero_dom_freq hz).1
  · exact (get_spm_all_zero df5 0 10 noKwargs noKwargs zero_dom_freq hz).2

/-- C3 amended: the notebook applies no minimum-sample-count and no zero-variance
check.  For every window whose sample values are all zero -- regardless of how few
samples it holds -- the peak-detection and autocorrelation methods of get_spm (with
the default unfiltered configuration) return the numeric estimate 0 steps-per-minute;
no WindowTooShort or NoSignal error exists anywhere in the pipeline. -/
theorem C3_amended (df : List (ℤ × ℚ)) (a b : ℚ) (pos neg : PeakKwargs)
    (domF : List ℚ → ℚ) (hz : ∀ v ∈ window_values df a b, v = 0) :
    (get_spm id id id domF df a b pos neg).peak_detection_spm = 0
      ∧ (get_spm id id id domF df a b pos neg).autocorrelation_spm = 0 :=
  get_spm_all_zero df a b pos neg domF hz

/-- Witness for C3 amended, with the notebook's aggregation peak kwargs. -/
theorem C3_amended_witness :
    (∀ v ∈ window_values df5 0 10, v = (0 : ℚ))
      ∧ (get_spm id id id zero_dom_freq df5 0 10 aggKwargs aggKwargs).peak_detection_spm = 0
      ∧ (get_spm id id id zero_dom_freq df5 0 10 aggKwargs aggKwargs).autocorrelation_spm = 0 :=
  ⟨by rw [window_values_df5]; decide,
   (C3_amended df5 0 10 aggKwargs aggKwargs zero_dom_freq
     (by rw [window_values_df5]; decide)).1,
   (C3_amended df5 0 10 aggKwargs aggKwargs zero_dom_freq
     (by rw [window_values_df5]; decide)).2⟩

-- ===================== Claim C4 =====================

/-- C4: for every method the smoothed cadence series realises the recurrence
smoothed[i] = alpha * raw[i] + (1 - alpha) * smoothed[i-1] with smoothed[0] = raw[0]
and alpha = 0.3 (pandas ewm(alpha=0.3, adjust=False).mean()); consequently a constant
raw series of value k smooths to k at every index. -/
theorem C4_ema_smoothing (raw : List ℚ) :
    (peak_detection_spm_EMA raw).length = raw.length
      ∧ (∀ x0 t, raw = x0 :: t → (peak_detection_spm_EMA raw).getD 0 0 = x0)
      ∧ (∀ i, i + 1 < raw.length →
          (peak_detection_spm_EMA raw).getD (i + 1) 0
            = 0.3 * raw.getD (i + 1) 0 + (1 - 0.3) * (peak_detection_spm_EMA raw).getD i 0)
      ∧ (∀ k, (∀ x ∈ raw, x = k) → ∀ y ∈ peak_detection_spm_EMA raw, y = k) := by
  refine ⟨ewm_mean_length _ _, ?_, ?_, ?_⟩
  · intro x0 t h
    subst h
    rfl
  · intro i hi
    exact ewm_mean_getD_succ 0.3 raw i hi
  · intro k hk
    exact ewm_mean_const 0.3 k raw hk

/-- Witness for C4 at the constant series [7, 7, 7]. -/
theorem C4_ema_smoothing_witness :
    (peak_detection_spm_EMA [7, 7, 7]).getD 0 0 = 7
      ∧ (peak_detection_spm_EMA [7, 7, 7]).getD 1 0
          = 0.3 * ([7, 7, 7] : List ℚ).getD 1 0
              + (1 - 0.3) * (peak_detection_spm_EMA [7, 7, 7]).getD 0 0
      ∧ (∀ y ∈ peak_detection_spm_EMA [7, 7, 7], y = (7 : ℚ)) :=
  ⟨(C4_ema_smoothing [7, 7, 7]).2.1 7 [7, 7] rfl,
   (C4_ema_smoothing [7, 7, 7]).2.2.1 0 (by decide),
   (C4_ema_smoothing [7, 7, 7]).2.2.2 7 (by decide)⟩

-- ===================== Claim C5 =====================

/-- C5: every cadence value the track exporter receives (an EMA smoothing of the
nonnegative per-window peak estimates) serializes to an integer in [0, 254]; values
above the 254 ceiling saturate to exactly 254 rather than being rejected. -/
theorem C5_cadence_extension (raw : List ℚ) (hnn : ∀ x ∈ raw, 0 ≤ x) :
    (∀ c ∈ peak_detection_spm_EMA raw,
        0 ≤ get_cadence_extension c ∧ get_cadence_extension c ≤ 254)
      ∧ (∀ c : ℚ, 254 < c → get_cadence_extension c = 254) := by
  constructor
  · intro c hc
    have hc0 : 0 ≤ c :=
      ewm_mean_nonneg 0.3 raw (by norm_num) (by norm_num) hnn c hc
    by_cases h254 : c ≤ 254
    · rw [get_cadence_extension, if_pos h254, py_int, if_pos hc0]
      refine ⟨Int.floor_nonneg.mpr hc0, ?_⟩
      have hfle : (⌊c⌋ : ℚ) ≤ c := Int.floor_le c
      have hle : (⌊c⌋ : ℚ) ≤ 254 := le_trans hfle h254
      exact_mod_cast hle
    · rw [get_cadence_extension, if_neg h254]
      exact ⟨by decide, by decide⟩
  · intro c hc
    rw [get_cadence_extension, if_neg (not_le.mpr hc)]
    decide

/-- Witness for C5: the smoothed series of [100, 300] is [100, 160]; 160 serializes
inside [0, 254] and the out-of-range value 300 saturates to 254. -/
theorem C5_cadence_extension_witness :
    (0 ≤ get_cadence_extension 160 ∧ get_cadence_extension 160 ≤ 254)
      ∧ get_cadence_extension 300 = 254 :=
  ⟨(C5_cadence_extension [100, 300] (by decide)).1 160
      (by
        have hm : peak_detection_spm_EMA [100, 300] = [100, 160] := by
          norm_num [peak_detection_spm_EMA, ewm_mean, ewm_rec]
        rw [hm]
        simp),
   (C5_cadence_extension [100, 300] (by decide)).2 300 (by norm_num)⟩

-- ===================== Helper lemmas: concrete PCA data and autocorr =====================

theorem qcentered_024 : qcentered [0, 2, 4] = [-2, 0, 2] := by
  norm_num [qcentered, qmean]

theorem qss_024_ne : qss (qcentered [0, 2, 4]) ≠ 0 := by
  norm_num [qss, qcentered, qmean]

theorem autocorr_05050 : autocorr [0, 5, 0, 5, 0] = [0, 0, 25, 0] := by
  norm_num [autocorr, full_correlate, full_entry, corr_at, List.range_succ,
    Finset.sum_range_succ, List.getD]
  all_goals decide

theorem full_correlate_length (x : List ℚ) :
    (full_correlate x).length = 2 * x.length - 1 := by
  rw [full_correlate, List.length_map, List.length_range]

theorem autocorr_length (x : List ℚ) : (autocorr x).length = x.length - 1 := by
  rw [autocorr, List.length_take, full_correlate_length]
  omega

theorem autocorr_getD (x : List ℚ) (i : ℕ) (hi : i < (autocorr x).length) :
    (autocorr x).getD i 0 = corr_at x ((i : ℤ) - ((x.length : ℤ) - 1)) := by
  have h1 : i < (full_correlate x).length / 2 := by
    rw [autocorr, List.length_take] at hi
    exact lt_of_lt_of_le hi (min_le_left _ _)
  have h2 : i < (full_correlate x).length := lt_of_lt_of_le h1 (Nat.div_le_self _ _)
  have h3 : i < 2 * x.length - 1 := by
    rw [full_correlate_length] at h2
    exact h2
  rw [autocorr, List.getD_eq_getD_get?, List.get?_take h1, full_correlate, List.get?_map,
    List.get?_range h3]
  rfl

-- ===================== Claim C6 =====================

/-- C6 counterexample: for the series varying only along the third coordinate axis with
values 0, 2, 4, no valid PCA axis yields the projection series equal to the raw axis
values [0, 2, 4]: PCA centers the data first, so the projection is the mean-centered
series (here plus or minus [-2, 0, 2]), refuting the claim that the projection equals
the raw values of that axis. -/
theorem C6_counterexample :
    ¬ ∃ axis : Vec3, IsPCA0 (axis_data 2 [0, 2, 4]) axis [0, 2, 4] := by
  rintro ⟨axis, h⟩
  rcases pca0_unique 2 [0, 2, 4] qss_024_ne axis [0, 2, 4] h with ⟨_, hp⟩ | ⟨_, hp⟩
  · rw [qcentered_024] at hp
    exact absurd hp (by decide)
  · rw [qcentered_024] at hp
    simp at hp

/-- C6 amended: on a gravity-corrected series varying only along one coordinate axis,
the motion-axis extractor returns that coordinate axis up to sign, and the scalar
projection series equals the mean-centered raw values of that axis, with the same sign
as the returned axis (PCA subtracts the column mean before projecting); the
characterization of the returned axis requires a nonzero centered variance. -/
theorem C6_amended (k : Fin 3) (zs : List ℚ) :
    IsPCA0 (axis_data k zs) (basis k) (qcentered zs)
      ∧ (qss (qcentered zs) ≠ 0 →
          ∀ axis proj, IsPCA0 (axis_data k zs) axis proj →
            (axis = basis k ∧ proj = qcentered zs)
              ∨ (axis = vneg (basis k) ∧ proj = (qcentered zs).map (fun c => -c))) :=
  ⟨pca0_exists k zs, fun hS axis proj h => pca0_unique k zs hS axis proj h⟩

/-- Witness for C6 amended at the axis-2 series with values 0, 2, 4. -/
theorem C6_amended_witness :
    qss (qcentered [0, 2, 4]) ≠ 0
      ∧ IsPCA0 (axis_data 2 [0, 2, 4]) (basis 2) (qcentered [0, 2, 4])
      ∧ ((basis 2 = basis 2 ∧ qcentered [0, 2, 4] = qcentered [0, 2, 4])
          ∨ (basis 2 = vneg (basis 2)
              ∧ qcentered [0, 2, 4] = (qcentered [0, 2, 4]).map (fun c => -c))) :=
  ⟨qss_024_ne, (C6_amended 2 [0, 2, 4]).1,
   (C6_amended 2 [0, 2, 4]).2 qss_024_ne (basis 2) (qcentered [0, 2, 4])
     (C6_amended 2 [0, 2, 4]).1⟩

-- ===================== Claim C7 =====================

/-- C7 counterexample: the notebook performs no isotropy check and has no
DegenerateMotionAxis error.  On perfectly isotropic (zero-variance) stationary data --
four identical (0,0,1) g samples -- the PCA contract is satisfied by returning an axis,
and indeed by two different axes (e0 and e1), i.e. an arbitrary axis is silently
returned rather than an error being reported. -/
theorem C7_counterexample :
    IsPCA0 (List.replicate 4 stationary_g) (basis 0) (List.replicate 4 0)
      ∧ IsPCA0 (List.replicate 4 stationary_g) (basis 1) (List.replicate 4 0)
      ∧ basis 0 ≠ basis 1 := by
  refine ⟨pca0_const 4 stationary_g (basis 0) (vdot_basis_self 0),
    pca0_const 4 stationary_g (basis 1) (vdot_basis_self 1), ?_⟩
  intro h
  have h0 := congrFun h 0
  simp [basis] at h0

/-- C7 amended: the reference motion-axis extraction performs no degeneracy check: for
constant (zero-variance, hence isotropic) input every unit vector is a valid principal
axis of the centered data, PCA().fit_transform returns one of them arbitrarily, and no
DegenerateMotionAxis error exists or is surfaced to the caller. -/
theorem C7_amended (n : ℕ) (c v : Vec3) (hv : vdot v v = 1) :
    IsPCA0 (List.replicate n c) v (List.replicate n 0) :=
  pca0_const n c v hv

/-- Witness for C7 amended at three stationary samples and the axis e0. -/
theorem C7_amended_witness :
    vdot (basis 0) (basis 0) = 1
      ∧ IsPCA0 (List.replicate 3 stationary_g) (basis 0) (List.replicate 3 0) :=
  ⟨vdot_basis_self 0, C7_amended 3 stationary_g (basis 0) (vdot_basis_self 0)⟩

-- ===================== Helper lemmas: zero-phase filtering =====================

theorem coef_of_mem (h : List ℚ) (i : ℕ) (hi : i < h.length) :
    coef h (i : ℤ) = h.getD i 0 := by
  rw [coef, if_pos]
  · norm_num
  · exact ⟨Int.natCast_nonneg i, by exact_mod_cast hi⟩

theorem sum_ite_coef (h : List ℚ) (c : ℤ) :
    (∑ j ∈ Finset.range h.length, h.getD j 0 * (if c = (j : ℤ) then (1 : ℚ) else 0))
      = coef h c := by
  by_cases hc : 0 ≤ c ∧ c < (h.length : ℤ)
  · obtain ⟨hc0, hcl⟩ := hc
    have hcn : c.toNat < h.length := by omega
    rw [Finset.sum_eq_single c.toNat]
    · rw [if_pos (by omega), mul_one, coef, if_pos ⟨hc0, hcl⟩]
    · intro j hj hne
      rw [if_neg, mul_zero]
      intro hcj
      exact hne (by omega)
    · intro hnotmem
      exact absurd (Finset.mem_range.mpr hcn) hnotmem
  · rw [coef, if_neg hc]
    refine Finset.sum_eq_zero ?_
    intro j hj
    have hj2 := Finset.mem_range.mp hj
    rw [if_neg, mul_zero]
    intro hcj
    exact hc (by constructor <;> omega)

theorem filtfilt_impulse (h : List ℚ) (m n : ℤ) :
    filtfilt h (impulse m) n = acorr_k h (n - m) := by
  simp only [filtfilt, rev_sig, apply_causal, impulse, acorr_k]
  refine Finset.sum_congr rfl ?_
  intro i _
  congr 1
  rw [← sum_ite_coef h ((i : ℤ) + (n - m))]
  refine Finset.sum_congr rfl ?_
  intro j _
  congr 1
  have hiff : (-(-n - (i : ℤ)) - (j : ℤ) = m) ↔ ((i : ℤ) + (n - m) = (j : ℤ)) := by omega
  exact if_congr hiff rfl rfl

theorem acorr_k_zero_eq (h : List ℚ) :
    acorr_k h 0 = ∑ j ∈ Finset.range h.length, (h.getD j 0) ^ 2 := by
  rw [acorr_k]
  refine Finset.sum_congr rfl ?_
  intro i hi
  rw [add_zero, coef_of_mem h i (Finset.mem_range.mp hi)]
  exact (pow_two _).symm

theorem acorr_k_zero_nonneg (h : List ℚ) : 0 ≤ acorr_k h 0 := by
  rw [acorr_k_zero_eq]
  exact Finset.sum_nonneg fun j _ => sq_nonneg _

theorem shift_sq_le (h : List ℚ) (d : ℤ) :
    (∑ i ∈ Finset.range h.length, (coef h ((i : ℤ) + d)) ^ 2)
      ≤ ∑ j ∈ Finset.range h.length, (h.getD j 0) ^ 2 := by
  classical
  set S := (Finset.range h.length).filter
    (fun i : ℕ => 0 ≤ (i : ℤ) + d ∧ (i : ℤ) + d < (h.length : ℤ)) with hSdef
  have hstep1 : (∑ i ∈ Finset.range h.length, (coef h ((i : ℤ) + d)) ^ 2)
      = ∑ i ∈ S, (coef h ((i : ℤ) + d)) ^ 2 := by
    rw [hSdef]
    refine (Finset.sum_filter_of_ne ?_).symm
    intro i _ hne
    by_contra hpred
    apply hne
    rw [coef, if_neg hpred]
    norm_num
  have hstep2 : (∑ i ∈ S, (coef h ((i : ℤ) + d)) ^ 2)
      = ∑ i ∈ S, (h.getD ((i : ℤ) + d).toNat 0) ^ 2 := by
    refine Finset.sum_congr rfl ?_
    intro i hi
    rw [hSdef, Finset.mem_filter] at hi
    rw [coef, if_pos hi.2]
  have hinj : ∀ x ∈ S, ∀ y ∈ S, ((x : ℤ) + d).toNat = ((y : ℤ) + d).toNat → x = y := by
    intro x hx y hy hxy
    rw [hSdef, Finset.mem_filter] at hx hy
    omega
  have hstep3 : (∑ i ∈ S, (h.getD ((i : ℤ) + d).toNat 0) ^ 2)
      = ∑ j ∈ S.image (fun i : ℕ => ((i : ℤ) + d).toNat), (h.getD j 0) ^ 2 := by
    rw [Finset.sum_image hinj]
  have hsub : S.image (fun i : ℕ => ((i : ℤ) + d).toNat) ⊆ Finset.range h.length := by
    intro j hj
    rcases Finset.mem_image.mp hj with ⟨i, hi, rfl⟩
    rw [hSdef, Finset.mem_filter] at hi
    rw [Finset.mem_range]
    omega
  rw [hstep1, hstep2, hstep3]
  exact Finset.sum_le_sum_of_subset_of_nonneg hsub (fun j _ _ => sq_nonneg _)

theorem acorr_k_le (h : List ℚ) (d : ℤ) : acorr_k h d ≤ acorr_k h 0 := by
  have hcs := Finset.sum_mul_sq_le_sq_mul_sq (Finset.range h.length)
    (fun i => h.getD i 0) (fun i => coef h ((i : ℤ) + d))
  have hshift := shift_sq_le h d
  have hnn : (0 : ℚ) ≤ ∑ j ∈ Finset.range h.length, (h.getD j 0) ^ 2 :=
    Finset.sum_nonneg fun j _ => sq_nonneg _
  have hsq : (acorr_k h d) ^ 2 ≤ (acorr_k h 0) ^ 2 := by
    rw [acorr_k, acorr_k_zero_eq]
    calc (∑ i ∈ Finset.range h.length, h.getD i 0 * coef h ((i : ℤ) + d)) ^ 2
        ≤ (∑ i ∈ Finset.range h.length, (h.getD i 0) ^ 2)
            * ∑ i ∈ Finset.range h.length, (coef h ((i : ℤ) + d)) ^ 2 := hcs
      _ ≤ (∑ i ∈ Finset.range h.length, (h.getD i 0) ^ 2)
            * ∑ j ∈ Finset.range h.length, (h.getD j 0) ^ 2 :=
          mul_le_mul_of_nonneg_left hshift hnn
      _ = (∑ j ∈ Finset.range h.length, (h.getD j 0) ^ 2) ^ 2 := (pow_two _).symm
  nlinarith [acorr_k_zero_nonneg h, hsq]

-- ===================== Claim C8 =====================

/-- C8: forward-backward (filtfilt) application of a causal filter is zero-phase on a
test impulse: for every impulse response h (covering the designed low-, high- and
band-pass filters alike) and every impulse position m, the filtered output attains its
peak at the input peak index m -- the output equals the autocorrelation of h recentred
at m, which is maximal at lag zero by the Cauchy-Schwarz inequality -- so filtering
introduces no time shift between input and output. -/
theorem C8_zero_phase (h : List ℚ) (m n : ℤ) :
    filtfilt h (impulse m) n ≤ filtfilt h (impulse m) m := by
  rw [filtfilt_impulse, filtfilt_impulse, sub_self]
  exact acorr_k_le h (n - m)

-- ===================== Claim C9 =====================

/-- C9: the autocorrelation estimator computes the one-sided autocorrelation of the
(band-pass-filtered) window -- the first n-1 entries of the full self-correlation, all
at strictly negative lags, so the zero-lag peak is excluded -- counts its local maxima
with find_peaks, and reports that count divided by the window span in seconds times 60;
concretely, the window [0,5,0,5,0] has one-sided autocorrelation [0,0,25,0] with a
single local maximum. -/
theorem C9_autocorr_estimator :
    (∀ pf ff af domF df a b pos neg,
        (get_spm pf ff af domF df a b pos neg).autocorrelation_spm
          = ((find_peaks (autocorr (af (window_values df a b))) noKwargs).length : ℚ)
              / observed_span_seconds df a b * 60)
      ∧ (∀ data, autocorr_steps data = (find_peaks (autocorr data) noKwargs).length)
      ∧ (∀ x : List ℚ, (autocorr x).length = x.length - 1)
      ∧ (∀ (x : List ℚ) (i : ℕ), i < (autocorr x).length →
          (autocorr x).getD i 0 = corr_at x ((i : ℤ) - ((x.length : ℤ) - 1))
            ∧ (i : ℤ) - ((x.length : ℤ) - 1) < 0)
      ∧ autocorr [0, 5, 0, 5, 0] = [0, 0, 25, 0]
      ∧ autocorr_steps [0, 5, 0, 5, 0] = 1 := by
  refine ⟨fun _ _ _ _ _ _ _ _ _ => rfl, fun _ => rfl, autocorr_length, ?_, autocorr_05050, ?_⟩
  · intro x i hi
    refine ⟨autocorr_getD x i hi, ?_⟩
    rw [autocorr_length] at hi
    omega
  · rw [autocorr_steps, autocorr_05050]
    decide

/-- Witness for C9 at the window [0,5,0,5,0] and index 2 (lag -2). -/
theorem C9_autocorr_estimator_witness :
    (autocorr [0, 5, 0, 5, 0]).getD 2 0
        = corr_at [0, 5, 0, 5, 0] ((2 : ℤ) - ((([0, 5, 0, 5, 0] : List ℚ).length : ℤ) - 1))
      ∧ (2 : ℤ) - ((([0, 5, 0, 5, 0] : List ℚ).length : ℤ) - 1) < 0 :=
  C9_autocorr_estimator.2.2.2.1 [0, 5, 0, 5, 0] 2
    (by rw [autocorr_length]; norm_num)

-- ===================== Claim C10 =====================

/-- C10: both spm values of get_spm are normalized by the actually observed time span
of the samples inside the window, (max sample time - min sample time) / 1000 seconds,
not by the nominal window length: on a recording ending 2 s in, the 10 s window
starting at 0 is normalized by its 2 s observed span (yielding 2 / 2 * 60 = 60 spm,
where nominal-duration normalization would yield 12). -/
theorem C10_observed_span_normalization :
    (∀ pf ff af domF df a b pos neg,
        (get_spm pf ff af domF df a b pos neg).peak_detection_spm
            = to_steps_per_minute
                ((peak_detection_steps (pf (window_values df a b)) pos neg : ℕ) : ℚ)
                (observed_span_seconds df a b)
          ∧ (get_spm pf ff af domF df a b pos neg).autocorrelation_spm
            = to_steps_per_minute ((autocorr_steps (af (window_values df a b)) : ℕ) : ℚ)
                (observed_span_seconds df a b))
      ∧ (∀ df a b, observed_span_seconds df a b
          = (((time_max ((get_time_period df a b).map (fun r => r.1))
                - time_min ((get_time_period df a b).map (fun r => r.1))) : ℤ) : ℚ) / 1000)
      ∧ observed_span_seconds dfTrail 0 10 = 2
      ∧ (get_spm id id id zero_dom_freq dfTrail 0 10 noKwargs noKwargs).peak_detection_spm = 60 :=
  ⟨fun _ _ _ _ _ _ _ _ _ => ⟨rfl, rfl⟩, fun _ _ _ => rfl, span_dfTrail, by
    simp only [get_spm, id_eq, window_values_dfTrail, span_dfTrail, steps_05050,
      to_steps_per_minute]
    norm_num⟩

end WMF
